import Mathlib

/-!
Verification development for the scooter-wheels scheduling engine
(`src/app.py`): the schedule mutator (`apply_delay`, `apply_move`,
`apply_swap`), the machine repacker (`_repack_touched_machines`), the
intent validator (`validate_intent`) and the pattern-based intent
extractor (`_regex_fallback`, `_num_token_to_int`, `extract_intent`).

Modelling conventions:
* Instants and durations are integers (seconds).  `timedelta(days=d,
  hours=h)` becomes `d * 86400 + h * 3600`; the validated `days`/`hours`
  magnitudes of a command are integers (the pattern-based extractor only
  ever produces integers).
* Python `delta.days` is floor division of the total seconds by 86400 and
  `delta.seconds` the (nonnegative) remainder; for the positive divisors
  used here Lean `Int.ediv` / `Int.emod` have exactly those semantics.
* A pandas DataFrame with its stable row index becomes a `List Operation`;
  row label = list position.  `df.at[idx, col]` updates become positional
  assignment lists.  `sort_values(["start", "end"])` becomes an insertion
  sort by the same lexicographic key (the source uses pandas quicksort,
  whose order on exactly tied keys is unspecified; the claims checked here
  are insensitive to the tie order).
* The OpenAI extractor and `dateutil.parser.parse` are external services;
  they enter as oracle parameters (`llm`, a date-parsing function).
-/

/-- One row of the schedule table (`data/scooter_schedule.csv` columns used
by `app.py`): `order_id`, `machine`, `operation`, `sequence`, `start`,
`end`, `due_date`, `wheel_type`.  `end` is a Lean keyword, hence `end_`. -/
structure Operation where
  order_id : String
  machine : String
  operation : String
  sequence : Int
  start : Int
  end_ : Int
  due_date : Int
  wheel_type : String
deriving DecidableEq, Repr

/-- The working schedule (`schedule_df`): a list of operations. -/
abbrev Timeline := List Operation

/-- Two half-open intervals `[start, end)` intersect. -/
def overlap (a b : Operation) : Prop :=
  max a.start b.start < min a.end_ b.end_

instance (a b : Operation) : Decidable (overlap a b) :=
  decidable_of_iff (max a.start b.start < min a.end_ b.end_) Iff.rfl

/-- The machine non-overlap invariant of the spec: no two operations on the
same machine have intersecting `[start, end)` intervals. -/
def NoOverlap (s : Timeline) : Prop :=
  List.Pairwise (fun a b => a.machine = b.machine → ¬ overlap a b) s

instance (s : Timeline) : Decidable (NoOverlap s) := by
  unfold NoOverlap; infer_instance

/-- Well-formedness from the data model: every operation has `end ≥ start`. -/
def DurNonneg (s : Timeline) : Prop :=
  ∀ op ∈ s, op.start ≤ op.end_

instance (s : Timeline) : Decidable (DurNonneg s) := by
  unfold DurNonneg; infer_instance

/-- Pair the operations with their row labels, starting at `n`
(the `s.index` of the DataFrame). -/
def enumFrom (n : Nat) : Timeline → List (Nat × Operation)
  | [] => []
  | op :: rest => (n, op) :: enumFrom (n + 1) rest

/-- Comparison used by `sort_values(["start", "end"])`: lexicographic on
(start, end), ascending. -/
def lePair (p q : Nat × Operation) : Bool :=
  decide (p.2.start < q.2.start ∨ (p.2.start = q.2.start ∧ p.2.end_ ≤ q.2.end_))

/-- Insert into a sorted list (helper of the insertion sort). -/
def insertSorted (le : (Nat × Operation) → (Nat × Operation) → Bool)
    (x : Nat × Operation) : List (Nat × Operation) → List (Nat × Operation)
  | [] => [x]
  | y :: ys => if le x y then x :: y :: ys else y :: insertSorted le x ys

/-- Insertion sort (models `DataFrame.sort_values`). -/
def sortPairs (le : (Nat × Operation) → (Nat × Operation) → Bool) :
    List (Nat × Operation) → List (Nat × Operation)
  | [] => []
  | x :: xs => insertSorted le x (sortPairs le xs)

/-- The block of one machine, as in `_repack_touched_machines`:
`s.loc[s["machine"] == m]` (with row labels) sorted by `["start", "end"]`. -/
def blockOf (s : Timeline) (m : String) : List (Nat × Operation) :=
  sortPairs lePair ((enumFrom 0 s).filter (fun p => p.2.machine == m))

/-- New (start, end) assignments keyed by row label. -/
abbrev Asg := List (Nat × Int × Int)

/-- The sweep of `_repack_touched_machines`: walk the sorted block keeping
`last_end` (`none` initially, as `last_end = None`); an operation whose
original `start` precedes `last_end` is pushed to `start = last_end`,
`end = last_end + dur`; `last_end` becomes the (possibly updated) end. -/
def sweep : Option Int → List (Nat × Operation) → Asg
  | _, [] => []
  | none, (i, op) :: rest => (i, op.start, op.end_) :: sweep (some op.end_) rest
  | some le, (i, op) :: rest =>
    if op.start < le then
      (i, le, le + (op.end_ - op.start)) :: sweep (some (le + (op.end_ - op.start))) rest
    else
      (i, op.start, op.end_) :: sweep (some op.end_) rest

/-- Look a row label up in an assignment list. -/
def alookup (i : Nat) : Asg → Option (Int × Int)
  | [] => none
  | (k, v) :: rest => if i = k then some v else alookup i rest

/-- Apply one optional (start, end) assignment to an operation
(`s.at[idx, "start"] = ...; s.at[idx, "end"] = ...`). -/
def applyAsgOne (v : Option (Int × Int)) (op : Operation) : Operation :=
  match v with
  | some p => { op with start := p.1, end_ := p.2 }
  | none => op

/-- Write an assignment list back into the schedule, positions counted
from `n`. -/
def applyAsgFrom (n : Nat) (asg : Asg) : Timeline → Timeline
  | [] => []
  | op :: rest => applyAsgOne (alookup n asg) op :: applyAsgFrom (n + 1) asg rest

/-- The body of the per-machine loop of `_repack_touched_machines`. -/
def repackMachine (s : Timeline) (m : String) : Timeline :=
  applyAsgFrom 0 (sweep none (blockOf s m)) s

/-- First-occurrence deduplication (`pandas.Series.unique().tolist()`). -/
def dedupFirst (l : List String) : List String :=
  l.foldl (fun acc x => if acc.contains x then acc else acc ++ [x]) []

/-- Machines hosting at least one operation of a touched order:
`s.loc[s["order_id"].isin(touched_orders), "machine"].unique().tolist()`. -/
def machinesOf (s : Timeline) (touched : List String) : List String :=
  dedupFirst ((s.filter (fun op => touched.contains op.order_id)).map (fun op => op.machine))

/-- `_repack_touched_machines(s, touched_orders)`: repack every machine
touched by one of the given orders, in list order. -/
def repack_touched_machines (s : Timeline) (touched : List String) : Timeline :=
  (machinesOf s touched).foldl repackMachine s

/-- The shift step of `apply_delay`, before repacking: add
`timedelta(days=days, hours=hours)` to `start` and `end` of every
operation of `order_id`. -/
def shift_order (s : Timeline) (order_id : String) (days hours : Int) : Timeline :=
  s.map (fun op =>
    if op.order_id = order_id then
      { op with start := op.start + (days * 86400 + hours * 3600),
                end_ := op.end_ + (days * 86400 + hours * 3600) }
    else op)

/-- `apply_delay(schedule_df, order_id, days, hours)`. -/
def apply_delay (s : Timeline) (order_id : String) (days hours : Int) : Timeline :=
  repack_touched_machines (shift_order s order_id days hours) [order_id]

/-- `s.loc[s["order_id"] == order_id, "start"].min()` — the earliest start
of an order (`none` when the order has no operations; pandas then yields
NaN and the callers below are only specified for present orders). -/
def earliest_start (s : Timeline) (order_id : String) : Option Int :=
  ((s.filter (fun op => op.order_id == order_id)).map (fun op => op.start)).min?

/-- `timedelta(seconds=x).days`: floor division of the total seconds by
86400 (Python normalizes `days` toward minus infinity). -/
def tdDays (x : Int) : Int := x / 86400

/-- `timedelta(seconds=x).seconds // 3600`: the nonnegative sub-day
remainder, floor-divided by 3600. -/
def tdHours (x : Int) : Int := (x % 86400) / 3600

/-- `apply_move(schedule_df, order_id, target_dt)`: delta from the earliest
start to the target, handed to `apply_delay` as `(delta.days,
delta.seconds // 3600)`. -/
def apply_move (s : Timeline) (order_id : String) (target : Int) : Timeline :=
  match earliest_start s order_id with
  | some t0 => apply_delay s order_id (tdDays (target - t0)) (tdHours (target - t0))
  | none => s

/-- `apply_swap(schedule_df, a, b)`: both earliest starts are read from the
incoming schedule, then the two delays run sequentially. -/
def apply_swap (s : Timeline) (a b : String) : Timeline :=
  match earliest_start s a, earliest_start s b with
  | some a0, some b0 =>
    let da := b0 - a0
    let db := a0 - b0
    apply_delay (apply_delay s a (tdDays da) (tdHours da)) b (tdDays db) (tdHours db)
  | _, _ => s

/-- All fields of an operation other than `start` and `end` agree. -/
def frameEq (a b : Operation) : Prop :=
  a.order_id = b.order_id ∧ a.machine = b.machine ∧ a.operation = b.operation ∧
  a.sequence = b.sequence ∧ a.due_date = b.due_date ∧ a.wheel_type = b.wheel_type

instance (a b : Operation) : Decidable (frameEq a b) := by
  unfold frameEq; infer_instance

/-! ### Candidate payloads (the extractor/validator contract) -/

/-- The candidate payload dictionary produced by the extractor: `intent`
plus the optional fields of `INTENT_SCHEMA` that the engine reads
(`_source` and `note` are ignored by every consumer). -/
structure Payload where
  intent : String
  order_id : Option String := none
  order_id_2 : Option String := none
  days : Option Int := none
  hours : Option Int := none
  date : Option String := none
  time : Option String := none
  raw : Option String := none
deriving DecidableEq, Repr

/-! ### The pattern-based extractor

A small backtracking regular-expression engine with Python `re.search`
semantics (leftmost match; alternatives tried left to right; greedy
quantifiers try longest first, lazy ones shortest first), specialised to
the constructs the five patterns of `_regex_fallback` use.  Character
classes follow Python with ASCII input: `\w` = alphanumeric or underscore,
`\s` = whitespace, `.` = anything but newline. -/

/-- Python `\w` (ASCII). -/
def wordChar (c : Char) : Bool := c.isAlphanum || c == '_'

/-- Python `\s` (ASCII). -/
def spaceChar (c : Char) : Bool :=
  c == ' ' || c == '\t' || c == '\n' || c == '\r' || c == '\x0b' || c == '\x0c'

/-- Python `.` without `DOTALL`. -/
def dotChar (c : Char) : Bool := c != '\n'

/-- Python `[\w\-]`. -/
def wordHyphenChar (c : Char) : Bool := wordChar c || c == '-'

/-- Regular expressions, as used by the five patterns of
`_regex_fallback`: literals, character classes, ordered alternation,
sequencing, lazy/greedy star over a class, greedy plus over a class,
greedy option, word boundary, `(?:^|\b)`, and numbered capture groups. -/
inductive RE where
  | lit : List Char → RE
  | cls : (Char → Bool) → RE
  | eps : RE
  | alt : RE → RE → RE
  | seq : RE → RE → RE
  | starL : (Char → Bool) → RE
  | starG : (Char → Bool) → RE
  | plusG : (Char → Bool) → RE
  | opt : RE → RE
  | wb : RE
  | bolOrWb : RE
  | grp : Nat → RE → RE

/-- Captured groups: group number paired with the matched characters. -/
abbrev Caps := List (Nat × List Char)

/-- Record a capture. -/
def setCap (n : Nat) (v : List Char) (caps : Caps) : Caps := (n, v) :: caps

/-- Read a capture (most recent wins). -/
def getCap (n : Nat) : Caps → Option (List Char)
  | [] => none
  | (k, v) :: rest => if n = k then some v else getCap n rest

/-- Does the character at position `i` satisfy `p`? -/
def testAt (p : Char → Bool) (s : List Char) (i : Nat) : Bool :=
  match s.get? i with
  | some c => p c
  | none => false

/-- Is the character at position `i` a word character? -/
def isWordAt (s : List Char) (i : Nat) : Bool :=
  match s.get? i with
  | some c => wordChar c
  | none => false

/-- Python `\b`: word character on exactly one side of position `i`. -/
def isBoundary (s : List Char) (i : Nat) : Bool :=
  (if i = 0 then false else isWordAt s (i - 1)) != isWordAt s i

/-- The characters of `s` from position `i` (inclusive) to `j` (exclusive). -/
def sliceChars (s : List Char) (i j : Nat) : List Char := (s.drop i).take (j - i)

/-- Lazy star over a class: offer the continuation the shortest match
first, then consume one more character and retry; `fuel` bounds the
number of characters still consumable. -/
def starLRun (p : Char → Bool) (s : List Char) :
    Nat → Nat → Caps → (Nat → Caps → Option Caps) → Option Caps
  | 0, i, caps, k => k i caps
  | fuel + 1, i, caps, k =>
    (k i caps).orElse fun _ =>
      if testAt p s i then starLRun p s fuel (i + 1) caps k else none

/-- Greedy star over a class: consume as much as possible, backtracking
one character at a time. -/
def starGRun (p : Char → Bool) (s : List Char) :
    Nat → Nat → Caps → (Nat → Caps → Option Caps) → Option Caps
  | 0, i, caps, k => k i caps
  | fuel + 1, i, caps, k =>
    (if testAt p s i then starGRun p s fuel (i + 1) caps k else none).orElse
      fun _ => k i caps

/-- Match `r` at position `i` of `s`, calling the continuation `k` with
the end position and captures of each candidate match, most preferred
first; the first candidate the continuation accepts wins. -/
def mre (s : List Char) : RE → Nat → Caps → (Nat → Caps → Option Caps) → Option Caps
  | .lit cs, i, caps, k => if cs.isPrefixOf (s.drop i) then k (i + cs.length) caps else none
  | .cls p, i, caps, k => if testAt p s i then k (i + 1) caps else none
  | .eps, i, caps, k => k i caps
  | .alt a b, i, caps, k => (mre s a i caps k).orElse fun _ => mre s b i caps k
  | .seq a b, i, caps, k => mre s a i caps (fun j c => mre s b j c k)
  | .starL p, i, caps, k => starLRun p s (s.length + 1 - i) i caps k
  | .starG p, i, caps, k => starGRun p s (s.length + 1 - i) i caps k
  | .plusG p, i, caps, k =>
    if testAt p s i then starGRun p s (s.length + 1 - (i + 1)) (i + 1) caps k else none
  | .opt r, i, caps, k => (mre s r i caps k).orElse fun _ => k i caps
  | .wb, i, caps, k => if isBoundary s i then k i caps else none
  | .bolOrWb, i, caps, k => if i == 0 || isBoundary s i then k i caps else none
  | .grp n r, i, caps, k => mre s r i caps (fun j c => k j (setCap n (sliceChars s i j) c))

/-- Try to match starting at positions `i, i+1, ...` (`re.search`). -/
def searchFrom (r : RE) (s : List Char) : Nat → Nat → Option Caps
  | 0, _ => none
  | fuel + 1, i =>
    match mre s r i [] (fun j caps => some (setCap 0 (sliceChars s i j) caps)) with
    | some caps => some caps
    | none => if i < s.length then searchFrom r s fuel (i + 1) else none

/-- `re.search(pattern, s)`: leftmost match, or `none`. -/
def reSearch (r : RE) (s : List Char) : Option Caps :=
  searchFrom r s (s.length + 1) 0

/-- Right-fold a list of regexes into a sequence. -/
def seqL (rs : List RE) : RE := rs.foldr RE.seq RE.eps

/-- Left-to-right alternation of a list of regexes. -/
def altL (rs : List RE) : RE := rs.foldr RE.alt (RE.lit ['\x00'])

/-- `o\d{3}`. -/
def reOid : RE :=
  seqL [RE.lit ['o'], RE.cls Char.isDigit, RE.cls Char.isDigit, RE.cls Char.isDigit]

/-- `(?:^|\b)(swap|switch)\s+(o\d{3})\s*(?:with|and|&)?\s*(o\d{3})\b`. -/
def swapRE : RE :=
  seqL [RE.bolOrWb, RE.grp 1 (altL [RE.lit "swap".data, RE.lit "switch".data]),
    RE.plusG spaceChar, RE.grp 2 reOid, RE.starG spaceChar,
    RE.opt (altL [RE.lit "with".data, RE.lit "and".data, RE.lit "&".data]),
    RE.starG spaceChar, RE.grp 3 reOid, RE.wb]

/-- `(delay|push|postpone)`. -/
def delayVerbs : RE := altL [RE.lit "delay".data, RE.lit "push".data, RE.lit "postpone".data]

/-- `(day|days|d|hour|hours|h)`. -/
def unitAlts : RE :=
  altL [RE.lit "day".data, RE.lit "days".data, RE.lit "d".data,
    RE.lit "hour".data, RE.lit "hours".data, RE.lit "h".data]

/-- `(delay|push|postpone)\s+(o\d{3}).*?\bby\b\s+([\w\-]+)\s*(day|days|d|hour|hours|h)\b`. -/
def delay1RE : RE :=
  seqL [RE.grp 1 delayVerbs, RE.plusG spaceChar, RE.grp 2 reOid,
    RE.starL dotChar, RE.wb, RE.lit "by".data, RE.wb, RE.plusG spaceChar,
    RE.grp 3 (RE.plusG wordHyphenChar), RE.starG spaceChar, RE.grp 4 unitAlts, RE.wb]

/-- `(delay|push|postpone)\s+(o\d{3}).*?\b([\w\-]+)\s*(day|days|d|hour|hours|h)\b`. -/
def delay2RE : RE :=
  seqL [RE.grp 1 delayVerbs, RE.plusG spaceChar, RE.grp 2 reOid,
    RE.starL dotChar, RE.wb,
    RE.grp 3 (RE.plusG wordHyphenChar), RE.starG spaceChar, RE.grp 4 unitAlts, RE.wb]

/-- `(move|set|schedule)\s+(o\d{3})\s+(to|on)\s+(.+)`. -/
def moveRE : RE :=
  seqL [RE.grp 1 (altL [RE.lit "move".data, RE.lit "set".data, RE.lit "schedule".data]),
    RE.plusG spaceChar, RE.grp 2 reOid, RE.plusG spaceChar,
    RE.grp 3 (altL [RE.lit "to".data, RE.lit "on".data]), RE.plusG spaceChar,
    RE.grp 4 (RE.plusG dotChar)]

/-- `(delay|push|postpone)\s+(o\d{3}).*\b(one)\s+day\b`. -/
def onedayRE : RE :=
  seqL [RE.grp 1 delayVerbs, RE.plusG spaceChar, RE.grp 2 reOid,
    RE.starG dotChar, RE.wb, RE.grp 3 (RE.lit "one".data), RE.plusG spaceChar,
    RE.lit "day".data, RE.wb]

/-! ### Number words and the quantity parser -/

/-- The `NUM_WORDS` table of `app.py` (zero .. twenty). -/
def NUM_WORDS : List (String × Int) :=
  [("zero", 0), ("one", 1), ("two", 2), ("three", 3), ("four", 4), ("five", 5),
   ("six", 6), ("seven", 7), ("eight", 8), ("nine", 9), ("ten", 10),
   ("eleven", 11), ("twelve", 12), ("thirteen", 13), ("fourteen", 14),
   ("fifteen", 15), ("sixteen", 16), ("seventeen", 17), ("eighteen", 18),
   ("nineteen", 19), ("twenty", 20)]

/-- Look a word up in `NUM_WORDS`. -/
def numWordValue (w : List Char) : Option Int :=
  (NUM_WORDS.find? (fun p => p.1.data == w)).map (fun p => p.2)

/-- Python `str.strip()` (ASCII whitespace). -/
def pyStrip (s : List Char) : List Char :=
  ((s.dropWhile spaceChar).reverse.dropWhile spaceChar).reverse

/-- Python `str.split()`: split on whitespace runs, dropping empty parts. -/
def splitWs (s : List Char) : List (List Char) :=
  (s.splitOnP spaceChar).filter (fun part => part ≠ [])

/-- Digit-string to integer (Python `int`). -/
def digitsToInt (s : List Char) : Int :=
  s.foldl (fun acc c => acc * 10 + (Int.ofNat (c.toNat - 48))) 0

/-- `_num_token_to_int(tok)`: strip, lowercase, turn hyphens into spaces;
a digit string parses as an integer; one or two tokens from `NUM_WORDS`
parse as their value or sum; anything else is `None`. -/
def num_token_to_int (tok : List Char) : Option Int :=
  let t := ((pyStrip tok).map Char.toLower).map (fun c => if c == '-' then ' ' else c)
  if t ≠ [] ∧ t.all Char.isDigit then some (digitsToInt t)
  else
    match splitWs t with
    | [p] => numWordValue p
    | [p, q] =>
      match numWordValue p, numWordValue q with
      | some a, some b => some (a + b)
      | _, _ => none
    | _ => none

/-! ### `_regex_fallback` and `extract_intent` -/

/-- Python `str.upper` over the captured characters, as a `String`. -/
def upperStr (cs : List Char) : String := String.mk (cs.map Char.toUpper)

/-- The swap rule of `_regex_fallback`. -/
def trySwap (low : List Char) : Option Payload :=
  match reSearch swapRE low with
  | none => none
  | some caps =>
    match getCap 2 caps, getCap 3 caps with
    | some g2, some g3 =>
      some { intent := "swap_orders", order_id := some (upperStr g2),
             order_id_2 := some (upperStr g3) }
    | _, _ => none

/-- Build the delay payload from captures: the unit decides `days` versus
`hours` by its first letter (`unit.startswith("d")`). -/
def mkDelay (g2 : List Char) (g4 : List Char) (n : Int) : Payload :=
  if g4.take 1 = ['d'] then
    { intent := "delay_order", order_id := some (upperStr g2), days := some n }
  else
    { intent := "delay_order", order_id := some (upperStr g2), hours := some n }

/-- The first (with `by`) delay rule: when the quantity token does not
parse, the rule declines and control falls to the next rule, exactly as
`if n is not None: return ...` falls through. -/
def tryDelayBy (low : List Char) : Option Payload :=
  match reSearch delay1RE low with
  | none => none
  | some caps =>
    match getCap 2 caps, getCap 3 caps, getCap 4 caps with
    | some g2, some g3, some g4 =>
      match num_token_to_int g3 with
      | some n => some (mkDelay g2 g4 n)
      | none => none
    | _, _, _ => none

/-- The looser delay rule (no `by`). -/
def tryDelayLoose (low : List Char) : Option Payload :=
  match reSearch delay2RE low with
  | none => none
  | some caps =>
    match getCap 2 caps, getCap 3 caps, getCap 4 caps with
    | some g2, some g3, some g4 =>
      match num_token_to_int g3 with
      | some n => some (mkDelay g2 g4 n)
      | none => none
    | _, _, _ => none

/-- The move rule: the free-form tail is handed to fuzzy date parsing
(`dateutil.parser.parse`), modelled as an oracle producing the
`date().isoformat()` and `strftime("%H:%M")` components, or `none` when
parsing raises (then the rule declines, as the `except: pass`). -/
def tryMove (dtParse : String → Option (String × String)) (low : List Char) :
    Option Payload :=
  match reSearch moveRE low with
  | none => none
  | some caps =>
    match getCap 2 caps, getCap 4 caps with
    | some g2, some g4 =>
      match dtParse (String.mk g4) with
      | some dt =>
        some { intent := "move_order", order_id := some (upperStr g2),
               date := some dt.1, time := some dt.2 }
      | none => none
    | _, _ => none

/-- The degenerate `one day` rule. -/
def tryOneday (low : List Char) : Option Payload :=
  match reSearch onedayRE low with
  | none => none
  | some caps =>
    match getCap 2 caps with
    | some g2 => some { intent := "delay_order", order_id := some (upperStr g2), days := some 1 }
    | none => none

/-- `low = user_text.strip().lower()`. -/
def lowered (text : String) : List Char := (pyStrip text.data).map Char.toLower

/-- `_regex_fallback(user_text)`: the five rules in order; when none fires
the result is the unknown payload carrying the raw input verbatim. -/
def regex_fallback (dtParse : String → Option (String × String)) (text : String) :
    Payload :=
  let low := lowered text
  ((((trySwap low).orElse fun _ => tryDelayBy low).orElse fun _ =>
      tryDelayLoose low).orElse fun _ =>
        (tryMove dtParse low).orElse fun _ => tryOneday low).getD
    { intent := "unknown", raw := some text }

/-- `extract_intent(user_text)`: the model-based strategy runs only when a
credential is configured (`llm = none` models the missing credential); any
failure of that strategy (`Except.error`) is swallowed and the
pattern-based fallback answers instead. -/
def extract_intent (llm : Option (Except Unit Payload))
    (dtParse : String → Option (String × String)) (text : String) : Payload :=
  match llm with
  | some (Except.ok p) => p
  | some (Except.error _) => regex_fallback dtParse text
  | none => regex_fallback dtParse text

/-! ### `validate_intent` and the command handler -/

/-- Python truthiness of `payload.get("days")`: present and nonzero. -/
def truthyNum (x : Option Int) : Bool :=
  match x with
  | some v => v != 0
  | none => false

/-- Python truthiness of an optional string: present and nonempty. -/
def truthyStr (x : Option String) : Bool :=
  match x with
  | some v => !v.isEmpty
  | none => false

/-- `x or d` for an optional string (Python falls back on the empty
string too). -/
def pyOrStr (x : Option String) (d : String) : String :=
  match x with
  | some v => if v.isEmpty then d else v
  | none => d

/-- Python `f"{oid}"` for an optional string (`None` prints as `None`). -/
def pyShowOpt (x : Option String) : String :=
  match x with
  | some v => v
  | none => "None"

/-- `order_exists(oid)` from `validate_intent`: `oid` truthy and present
in the orders table. -/
def order_exists (ordersIds : List String) (oid : Option String) : Bool :=
  match oid with
  | some o => !o.isEmpty && ordersIds.contains o
  | none => false

/-- `validate_intent(payload, orders_df, sched_df)`, with
`dtp.parse(f"{date_str} {hhmm}")` plus timezone localization modelled as
an oracle from the combined string to an instant.  Result: (ok, message,
resolved `_target_dt` when the payload is an accepted move).  Note: a
`swap_orders` payload that passes its checks still falls through every
`return True` and ends at `return False, "Invalid payload"`, exactly as
in the source. -/
def validate_intent (dateParse : String → Option Int) (p : Payload)
    (ordersIds : List String) : Bool × String × Option Int :=
  if ¬ (p.intent = "delay_order" ∨ p.intent = "move_order" ∨ p.intent = "swap_orders") then
    (false, "Unsupported intent", none)
  else if ¬ order_exists ordersIds p.order_id then
    (false, "Unknown order_id: " ++ pyShowOpt p.order_id, none)
  else if p.intent = "swap_orders" ∧ ¬ order_exists ordersIds p.order_id_2 then
    (false, "Unknown order_id_2: " ++ pyShowOpt p.order_id_2, none)
  else if p.intent = "swap_orders" ∧ p.order_id_2 = p.order_id then
    (false, "Cannot swap the same order.", none)
  else if p.intent = "delay_order" then
    if ¬ truthyNum p.days ∧ ¬ truthyNum p.hours then
      (false, "Delay needs days or hours.", none)
    else (true, "ok", none)
  else if p.intent = "move_order" then
    if ¬ truthyStr p.date then (false, "Move needs a date.", none)
    else
      let d := pyShowOpt p.date
      let hhmm := pyOrStr p.time "08:00"
      match dateParse (d ++ " " ++ hhmm) with
      | some dt => (true, "ok", some dt)
      | none => (false, "Unparseable datetime: " ++ d ++ " " ++ hhmm, none)
  else (false, "Invalid payload", none)

/-- The accepted-command dispatch of the `user_cmd` handler: validate,
then apply the matching mutation; on rejection the timeline is returned
untouched together with the reason. -/
def handle_payload (dateParse : String → Option Int) (ordersIds : List String)
    (tl : Timeline) (p : Payload) : Timeline × Bool × String :=
  let r := validate_intent dateParse p ordersIds
  if r.1 then
    let oid := (p.order_id).getD ""
    if p.intent = "delay_order" then
      (apply_delay tl oid ((p.days).getD 0) ((p.hours).getD 0), true, r.2.1)
    else if p.intent = "move_order" then
      (apply_move tl oid ((r.2.2).getD 0), true, r.2.1)
    else if p.intent = "swap_orders" then
      (apply_swap tl oid ((p.order_id_2).getD ""), true, r.2.1)
    else (tl, true, r.2.1)
  else (tl, false, r.2.1)

/-- The whole pipeline for one free-text command. -/
def process_command (llm : Option (Except Unit Payload))
    (dtParse : String → Option (String × String))
    (dateParse : String → Option Int) (ordersIds : List String)
    (tl : Timeline) (text : String) : Timeline × Bool × String :=
  handle_payload dateParse ordersIds tl (extract_intent llm dtParse text)

/-! ### Concrete schedules used to instantiate the theorems -/

/-- Two orders, one operation each, on a shared machine. -/
def exTL : Timeline :=
  [⟨"O001", "M1", "cut", 1, 0, 3600, 86400, "Urban-200"⟩,
   ⟨"O002", "M1", "cut", 1, 7200, 10800, 86400, "Racing-180"⟩]

/-- A single operation starting at instant 0. -/
def c3TL : Timeline :=
  [⟨"O001", "M1", "press", 1, 0, 3600, 7200, "Urban-200"⟩]

/-- Two orders on distinct machines, earliest starts 0 and 1800. -/
def c4TL : Timeline :=
  [⟨"O001", "M1", "cut", 1, 0, 100, 86400, "Urban-200"⟩,
   ⟨"O002", "M2", "cut", 1, 1800, 1900, 86400, "Eco-160"⟩]

/-! ## Shared helper lemmas -/

/-- The net shift handed to `apply_delay` by `apply_move`/`apply_swap` for
a delta of `d` seconds is `d` floored to the whole hour below. -/
theorem td_floor_hours (d : Int) :
    tdDays d * 86400 + tdHours d * 3600 = 3600 * (d / 3600) := by
  unfold tdDays tdHours
  omega

/-- Folded minimum of a uniformly shifted list. -/
theorem foldl_min_map_add (ys : List Int) :
    ∀ x c : Int, List.foldl min (x + c) (ys.map (fun v => v + c)) =
      List.foldl min x ys + c := by
  induction ys with
  | nil => intro x c; rfl
  | cons y ys ih =>
    intro x c
    simp only [List.map_cons, List.foldl_cons, min_add_add_right]
    exact ih (min x y) c

/-- Minimum of a uniformly shifted list. -/
theorem min?_map_add (l : List Int) (c : Int) :
    (l.map (fun x => x + c)).min? = l.min?.map (fun x => x + c) := by
  cases l with
  | nil => rfl
  | cons x xs =>
    show some (List.foldl min (x + c) (xs.map fun v => v + c)) =
      some (List.foldl min x xs + c)
    exact congrArg some (foldl_min_map_add xs x c)

/-- Filtering an order out of the shifted schedule is shifting the
filtered block. -/
theorem shift_filter (s : Timeline) (oid : String) (delta : Int) :
    (s.map (fun op =>
      if op.order_id = oid then
        { op with start := op.start + delta, end_ := op.end_ + delta }
      else op)).filter (fun op => op.order_id == oid) =
    (s.filter (fun op => op.order_id == oid)).map
      (fun op => { op with start := op.start + delta, end_ := op.end_ + delta }) := by
  induction s with
  | nil => rfl
  | cons a s ih =>
    by_cases hc : a.order_id = oid
    · simp [List.filter_cons, hc, ih]
    · simp [List.filter_cons, hc, ih]

/-- Shifting an order shifts its earliest start by the same delta. -/
theorem earliest_start_shift (s : Timeline) (oid : String) (d h : Int) :
    earliest_start (shift_order s oid d h) oid =
      (earliest_start s oid).map (fun x => x + (d * 86400 + h * 3600)) := by
  unfold earliest_start shift_order
  rw [shift_filter, List.map_map]
  rw [show ((fun op : Operation => op.start) ∘ fun op : Operation =>
      { op with start := op.start + (d * 86400 + h * 3600),
                end_ := op.end_ + (d * 86400 + h * 3600) }) =
      ((fun x : Int => x + (d * 86400 + h * 3600)) ∘ fun op : Operation => op.start)
    from rfl]
  rw [← List.map_map, min?_map_add]

/-! ## Claim theorems -/

/-- Claim C2: the shift step of `apply_delay` (the state just before
repacking runs) adds exactly `Δ = days * 86400 + hours * 3600` seconds to
the start and end of every operation of the order, and leaves every
operation of other orders untouched at that point; `apply_delay` is the
repack of that shifted state. -/
theorem shift_step_shifts_exactly (s : Timeline) (oid : String) (d h : Int) :
    apply_delay s oid d h = repack_touched_machines (shift_order s oid d h) [oid] ∧
    (shift_order s oid d h).length = s.length ∧
    ∀ i (hi : i < s.length) (hi2 : i < (shift_order s oid d h).length),
      (shift_order s oid d h)[i] =
        (if s[i].order_id = oid then
          { s[i] with start := s[i].start + (d * 86400 + h * 3600),
                      end_ := s[i].end_ + (d * 86400 + h * 3600) }
         else s[i]) := by
  refine ⟨rfl, by simp [shift_order], ?_⟩
  intro i hi hi2
  simp [shift_order]

/-- Witness for C2 on a concrete schedule: order `O001` of `exTL` shifted
by one day and two hours moves its operation from 0 to 93600, while the
`O002` operation stays in place. -/
theorem shift_step_shifts_exactly_witness :
    (shift_order exTL "O001" 1 2)[0] =
      (if exTL[0].order_id = "O001" then
        { exTL[0] with start := exTL[0].start + (1 * 86400 + 2 * 3600),
                       end_ := exTL[0].end_ + (1 * 86400 + 2 * 3600) }
       else exTL[0]) ∧
    (shift_order exTL "O001" 1 2)[1] =
      (if exTL[1].order_id = "O001" then
        { exTL[1] with start := exTL[1].start + (1 * 86400 + 2 * 3600),
                       end_ := exTL[1].end_ + (1 * 86400 + 2 * 3600) }
       else exTL[1]) :=
  ⟨(shift_step_shifts_exactly exTL "O001" 1 2).2.2 0 (by decide) (by decide),
   (shift_step_shifts_exactly exTL "O001" 1 2).2.2 1 (by decide) (by decide)⟩

/-- Claim C3, counterexample: with a single operation of `O001` starting
at instant 0, `apply_move` to target 1800 (half an hour later) does not
move the order at all — the earliest start stays 0, not the claimed
target 1800 — because the delta is handed to `apply_delay` as
`(delta.days, delta.seconds // 3600) = (0, 0)`, dropping the sub-hour
remainder. -/
theorem move_not_exact_delta_cex :
    earliest_start (apply_move c3TL "O001" 1800) "O001" = some 0 ∧
    some (0 : Int) ≠ some (1800 : Int) :=
  ⟨by decide, by decide⟩

/-- Claim C3 as amended: `move(timeline, O, t)` equals `delay` with the
day-and-hour components `(delta.days, delta.seconds // 3600)` of
`delta = t − earliest_start(O)` — that is, delta floored DOWN to a whole
hour, not delta exactly — and after the shift step the earliest start of
`O` is `earliest_start(O) + 3600 * ⌊delta / 3600⌋`, which equals `t` only
when delta is a whole number of hours. -/
theorem move_floors_delta_to_hour (s : Timeline) (oid : String) (t t0 : Int)
    (h0 : earliest_start s oid = some t0) :
    apply_move s oid t =
      apply_delay s oid (tdDays (t - t0)) (tdHours (t - t0)) ∧
    tdDays (t - t0) * 86400 + tdHours (t - t0) * 3600 = 3600 * ((t - t0) / 3600) ∧
    earliest_start (shift_order s oid (tdDays (t - t0)) (tdHours (t - t0))) oid =
      some (t0 + 3600 * ((t - t0) / 3600)) := by
  refine ⟨by unfold apply_move; rw [h0], td_floor_hours (t - t0), ?_⟩
  rw [earliest_start_shift, h0, Option.map_some', td_floor_hours (t - t0)]

/-- Witness for the amended C3: moving `O001` of `c3TL` (earliest start 0)
to target 5400 floors the 1.5-hour delta to one hour; the shifted earliest
start is 3600, not 5400. -/
theorem move_floors_delta_to_hour_witness :
    apply_move c3TL "O001" 5400 =
      apply_delay c3TL "O001" (tdDays (5400 - 0)) (tdHours (5400 - 0)) ∧
    tdDays (5400 - 0) * 86400 + tdHours (5400 - 0) * 3600 = 3600 * ((5400 - 0) / 3600) ∧
    earliest_start (shift_order c3TL "O001" (tdDays (5400 - 0)) (tdHours (5400 - 0))) "O001" =
      some (0 + 3600 * ((5400 - 0) / 3600)) :=
  move_floors_delta_to_hour c3TL "O001" 5400 0 (by decide)

/-- Claim C4, counterexample: in `c4TL` the earliest starts are `a0 = 0`
(order `O001`) and `b0 = 1800` (order `O002`); an exact exchange would put
`O002` at 0, but `apply_swap` delays `O002` by
`timedelta(days=-1, hours=23) = -3600` seconds (the floored components of
`a0 − b0 = -1800`), leaving its earliest start at `-1800` — so the deltas
are not passed as exactly equivalent day-and-hour components. -/
theorem swap_not_exact_delta_cex :
    earliest_start (apply_swap c4TL "O001" "O002") "O002" = some (-1800) ∧
    some (-1800 : Int) ≠ some (0 : Int) :=
  ⟨by decide, by decide⟩

/-- Claim C4 as amended: `swap(timeline, a, b)` applies `delay` to `a` and
then to `b` sequentially, with both pre-mutation earliest starts read from
the incoming timeline — that much holds — but each delta reaches `delay`
as the floored components `(delta.days, delta.seconds // 3600)`, i.e.
floored down to a whole hour, not as exactly equivalent components. -/
theorem swap_floors_deltas_to_hour (s : Timeline) (a b : String) (a0 b0 : Int)
    (ha : earliest_start s a = some a0) (hb : earliest_start s b = some b0) :
    apply_swap s a b =
      apply_delay (apply_delay s a (tdDays (b0 - a0)) (tdHours (b0 - a0))) b
        (tdDays (a0 - b0)) (tdHours (a0 - b0)) ∧
    tdDays (b0 - a0) * 86400 + tdHours (b0 - a0) * 3600 = 3600 * ((b0 - a0) / 3600) ∧
    tdDays (a0 - b0) * 86400 + tdHours (a0 - b0) * 3600 = 3600 * ((a0 - b0) / 3600) := by
  refine ⟨?_, td_floor_hours (b0 - a0), td_floor_hours (a0 - b0)⟩
  unfold apply_swap
  rw [ha, hb]

/-- Witness for the amended C4 at the concrete schedule `c4TL`. -/
theorem swap_floors_deltas_to_hour_witness :
    apply_swap c4TL "O001" "O002" =
      apply_delay (apply_delay c4TL "O001" (tdDays (1800 - 0)) (tdHours (1800 - 0))) "O002"
        (tdDays (0 - 1800)) (tdHours (0 - 1800)) ∧
    tdDays (1800 - 0) * 86400 + tdHours (1800 - 0) * 3600 = 3600 * ((1800 - 0) / 3600) ∧
    tdDays (0 - 1800) * 86400 + tdHours (0 - 1800) * 3600 = 3600 * ((0 - 1800) / 3600) :=
  swap_floors_deltas_to_hour c4TL "O001" "O002" 0 1800 (by decide) (by decide)

/-- Claim C7: any `delay_order` / `move_order` / `swap_orders` payload
whose `order_id` is not present in the orders table (including an absent
`order_id`) is rejected by `validate_intent` with a message naming the
unknown order, and the pipeline hands the timeline back unchanged. -/
theorem unknown_order_rejected (dateParse : String → Option Int)
    (ords : List String) (tl : Timeline) (p : Payload)
    (hI : p.intent = "delay_order" ∨ p.intent = "move_order" ∨ p.intent = "swap_orders")
    (hO : order_exists ords p.order_id = false) :
    validate_intent dateParse p ords =
      (false, "Unknown order_id: " ++ pyShowOpt p.order_id, none) ∧
    handle_payload dateParse ords tl p =
      (tl, false, "Unknown order_id: " ++ pyShowOpt p.order_id) := by
  have hv : validate_intent dateParse p ords =
      (false, "Unknown order_id: " ++ pyShowOpt p.order_id, none) := by
    unfold validate_intent
    rw [if_neg (not_not_intro hI), if_pos (by simp [hO])]
  refine ⟨hv, ?_⟩
  unfold handle_payload
  rw [hv]
  simp

/-- Witness for C7: a delay of the unknown order `O999` against an orders
table containing only `O001` leaves the concrete schedule `exTL`
untouched and reports the offending id. -/
theorem unknown_order_rejected_witness :
    validate_intent (fun _ => none) { intent := "delay_order", order_id := some "O999" }
      ["O001", "O002"] =
      (false, "Unknown order_id: " ++ pyShowOpt (some "O999"), none) ∧
    handle_payload (fun _ => none) ["O001", "O002"] exTL
      { intent := "delay_order", order_id := some "O999" } =
      (exTL, false, "Unknown order_id: " ++ pyShowOpt (some "O999")) :=
  unknown_order_rejected (fun _ => none) ["O001", "O002"] exTL
    { intent := "delay_order", order_id := some "O999" }
    (Or.inl rfl) (by decide)

/-- Claim C8: extraction is total by construction; a failing model-based
strategy (`Except.error`) or a missing credential both fall back to the
deterministic pattern strategy, so the failure never reaches the caller;
and when none of the five pattern rules recognizes the text the result is
the unknown payload carrying the original raw text verbatim. -/
theorem extract_total_fallback_unknown (dtParse : String → Option (String × String))
    (text : String)
    (h1 : trySwap (lowered text) = none)
    (h2 : tryDelayBy (lowered text) = none)
    (h3 : tryDelayLoose (lowered text) = none)
    (h4 : tryMove dtParse (lowered text) = none)
    (h5 : tryOneday (lowered text) = none) :
    extract_intent (some (Except.error ())) dtParse text = regex_fallback dtParse text ∧
    extract_intent none dtParse text = regex_fallback dtParse text ∧
    regex_fallback dtParse text = { intent := "unknown", raw := some text } := by
  refine ⟨rfl, rfl, ?_⟩
  simp only [regex_fallback, h1, h2, h3, h4, h5, Option.orElse, Option.getD]

/-- Witness for C8: the unrecognizable text of the spec's test table falls
through every rule and is returned as `unknown` with the raw text kept. -/
theorem extract_total_fallback_unknown_witness :
    extract_intent (some (Except.error ())) (fun _ => none) "please reorganize everything" =
      regex_fallback (fun _ => none) "please reorganize everything" ∧
    extract_intent none (fun _ => none) "please reorganize everything" =
      regex_fallback (fun _ => none) "please reorganize everything" ∧
    regex_fallback (fun _ => none) "please reorganize everything" =
      { intent := "unknown", raw := some "please reorganize everything" } :=
  extract_total_fallback_unknown (fun _ => none) "please reorganize everything"
    (by decide) (by decide) (by decide) (by decide) (by decide)

/-- Claim C10, counterexample: the delay rule captures the quantity as a
single `[\w\-]+` token, which cannot contain a space; on
`"delay o001 by five five days"` the captured token is the second `five`
alone, so the command yields a delay of 5 days — not the claimed 10. -/
theorem delay_two_word_quantity_cex :
    (regex_fallback (fun _ => none) "delay o001 by five five days").days = some 5 ∧
    some (5 : Int) ≠ some (10 : Int) :=
  ⟨by decide, by decide⟩

/-- Claim C10 as amended: `_num_token_to_int` itself does accept any two
number words of the table, space- or hyphen-separated, and returns their
sum (even for pairs that are not tens+ones compounds); but only a
hyphen-separated pair survives the delay rule's single-token capture, so
`"five-five"` in a delay command yields 10 while space-separated
`"five five"` yields the value of the last word alone, 5. -/
theorem num_words_pair_sum :
    (∀ p ∈ NUM_WORDS, ∀ q ∈ NUM_WORDS,
      num_token_to_int (p.1.data ++ [' '] ++ q.1.data) = some (p.2 + q.2) ∧
      num_token_to_int (p.1.data ++ ['-'] ++ q.1.data) = some (p.2 + q.2)) ∧
    (regex_fallback (fun _ => none) "delay o001 by five-five days").days = some 10 ∧
    (regex_fallback (fun _ => none) "delay o001 by five five days").days = some 5 :=
  ⟨by decide, by decide, by decide⟩

/-- Witness for the amended C10 at the pair (three, four): both separators
sum to 7. -/
theorem num_words_pair_sum_witness :
    num_token_to_int ("three".data ++ [' '] ++ "four".data) = some (3 + 4) ∧
    num_token_to_int ("three".data ++ ['-'] ++ "four".data) = some (3 + 4) :=
  num_words_pair_sum.1 ("three", 3) (by decide) ("four", 4) (by decide)

/-! ## Repacker machinery: enumeration, sorting, sweep, write-back -/

/-- Membership in the label enumeration. -/
theorem enumFrom_mem (l : Timeline) : ∀ (n : Nat) (p : Nat × Operation),
    p ∈ enumFrom n l ↔ ∃ k, ∃ h : k < l.length, p.1 = n + k ∧ p.2 = l[k] := by
  induction l with
  | nil => intro n p; simp [enumFrom]
  | cons a rest ih =>
    intro n p
    simp only [enumFrom, List.mem_cons, ih (n + 1)]
    constructor
    · rintro (rfl | ⟨k, hk, h1, h2⟩)
      · exact ⟨0, by simp, by simp⟩
      · exact ⟨k + 1, by simpa using hk, by omega, by simpa using h2⟩
    · rintro ⟨k, hk, h1, h2⟩
      cases k with
      | zero =>
        left
        have : p = (n, a) := by
          cases p
          simp_all
        exact this
      | succ k =>
        right
        exact ⟨k, by simpa using hk, by omega, by simpa using h2⟩

/-- Labels in the enumeration are at least the base. -/
theorem enumFrom_ge (l : Timeline) : ∀ (n : Nat) (p : Nat × Operation),
    p ∈ enumFrom n l → n ≤ p.1 := by
  induction l with
  | nil => intro n p hp; simp [enumFrom] at hp
  | cons a rest ih =>
    intro n p hp
    rcases List.mem_cons.mp hp with hp | hp
    · subst hp; simp
    · have := ih (n + 1) p hp
      omega

/-- Labels in the enumeration are strictly increasing. -/
theorem enumFrom_keys_sorted (l : Timeline) : ∀ (n : Nat),
    List.Pairwise (fun p q : Nat × Operation => p.1 < q.1) (enumFrom n l) := by
  induction l with
  | nil => intro n; exact List.Pairwise.nil
  | cons a rest ih =>
    intro n
    refine List.Pairwise.cons ?_ (ih (n + 1))
    intro q hq
    have := enumFrom_ge rest (n + 1) q hq
    simp only
    omega

/-- Inserting is a permutation of consing. -/
theorem insertSorted_perm (le : (Nat × Operation) → (Nat × Operation) → Bool)
    (x : Nat × Operation) : ∀ l, (insertSorted le x l).Perm (x :: l) := by
  intro l
  induction l with
  | nil => exact List.Perm.refl _
  | cons y ys ih =>
    unfold insertSorted
    by_cases h : le x y
    · rw [if_pos h]
    · rw [if_neg h]
      exact (List.Perm.cons y ih).trans (List.Perm.swap x y ys)

/-- The insertion sort permutes its input. -/
theorem sortPairs_perm (le : (Nat × Operation) → (Nat × Operation) → Bool) :
    ∀ l, (sortPairs le l).Perm l := by
  intro l
  induction l with
  | nil => exact List.Perm.refl _
  | cons x xs ih =>
    exact (insertSorted_perm le x (sortPairs le xs)).trans (List.Perm.cons x ih)

/-- The sweep reassigns exactly the labels of its block, in order. -/
theorem sweep_keys : ∀ (le : Option Int) (bl : List (Nat × Operation)),
    (sweep le bl).map Prod.fst = bl.map Prod.fst := by
  intro le bl
  induction bl generalizing le with
  | nil => cases le <;> rfl
  | cons p rest ih =>
    obtain ⟨i, op⟩ := p
    cases le with
    | none => simpa [sweep] using ih (some op.end_)
    | some v =>
      by_cases h : op.start < v
      · simpa [sweep, h] using ih (some (v + (op.end_ - op.start)))
      · simpa [sweep, h] using ih (some op.end_)

/-- Each sweep entry keeps its block row's label and duration and never
moves its start earlier. -/
theorem sweep_rel : ∀ (le : Option Int) (bl : List (Nat × Operation)),
    List.Forall₂ (fun (e : Nat × Int × Int) (p : Nat × Operation) =>
      e.1 = p.1 ∧ e.2.2 - e.2.1 = p.2.end_ - p.2.start ∧ p.2.start ≤ e.2.1)
      (sweep le bl) bl := by
  intro le bl
  induction bl generalizing le with
  | nil => cases le <;> exact List.Forall₂.nil
  | cons p rest ih =>
    obtain ⟨i, op⟩ := p
    cases le with
    | none =>
      exact List.Forall₂.cons (by simp) (ih (some op.end_))
    | some v =>
      by_cases h : op.start < v
      · simp only [sweep, if_pos h]
        refine List.Forall₂.cons ⟨rfl, ?_, ?_⟩ (ih (some (v + (op.end_ - op.start))))
        · show (v + (op.end_ - op.start)) - v = op.end_ - op.start
          ring
        · show op.start ≤ v
          omega
      · simp only [sweep, if_neg h]
        exact List.Forall₂.cons (by simp) (ih (some op.end_))

/-- With nonnegative durations, every entry produced after `last_end = le0`
starts no earlier than `le0` and ends no earlier than it starts. -/
theorem sweep_ge : ∀ (bl : List (Nat × Operation)) (le0 : Int),
    (∀ p ∈ bl, p.2.start ≤ p.2.end_) →
    ∀ e ∈ sweep (some le0) bl, le0 ≤ e.2.1 ∧ e.2.1 ≤ e.2.2 := by
  intro bl
  induction bl with
  | nil => intro le0 _ e he; simp [sweep] at he
  | cons p rest ih =>
    intro le0 hdur e he
    obtain ⟨i, op⟩ := p
    have hop : op.start ≤ op.end_ := hdur (i, op) (List.mem_cons_self _ _)
    have hrest : ∀ q ∈ rest, q.2.start ≤ q.2.end_ :=
      fun q hq => hdur q (List.mem_cons_of_mem _ hq)
    by_cases h : op.start < le0
    · simp only [sweep, if_pos h] at he
      rcases List.mem_cons.mp he with he | he
      · subst he
        refine ⟨le_refl _, ?_⟩
        show le0 ≤ le0 + (op.end_ - op.start)
        omega
      · have := ih (le0 + (op.end_ - op.start)) hrest e he
        constructor
        · have h1 : le0 ≤ le0 + (op.end_ - op.start) := by omega
          exact h1.trans this.1
        · exact this.2
    · simp only [sweep, if_neg h] at he
      rcases List.mem_cons.mp he with he | he
      · subst he
        refine ⟨?_, hop⟩
        show le0 ≤ op.start
        omega
      · have := ih op.end_ hrest e he
        constructor
        · have h1 : le0 ≤ op.end_ := by omega
          exact h1.trans this.1
        · exact this.2

/-- With nonnegative durations the sweep output is a chain: each entry
ends no later than every later entry starts. -/
theorem sweep_pairwise : ∀ (bl : List (Nat × Operation)) (le : Option Int),
    (∀ p ∈ bl, p.2.start ≤ p.2.end_) →
    List.Pairwise (fun a b : Nat × Int × Int => a.2.2 ≤ b.2.1) (sweep le bl) := by
  intro bl
  induction bl with
  | nil => intro le _; cases le <;> exact List.Pairwise.nil
  | cons p rest ih =>
    intro le hdur
    obtain ⟨i, op⟩ := p
    have hrest : ∀ q ∈ rest, q.2.start ≤ q.2.end_ :=
      fun q hq => hdur q (List.mem_cons_of_mem _ hq)
    cases le with
    | none =>
      refine List.Pairwise.cons ?_ (ih (some op.end_) hrest)
      intro e he
      exact (sweep_ge rest op.end_ hrest e he).1
    | some v =>
      by_cases h : op.start < v
      · simp only [sweep, if_pos h]
        refine List.Pairwise.cons ?_ (ih (some (v + (op.end_ - op.start))) hrest)
        intro e he
        exact (sweep_ge rest (v + (op.end_ - op.start)) hrest e he).1
      · simp only [sweep, if_neg h]
        refine List.Pairwise.cons ?_ (ih (some op.end_) hrest)
        intro e he
        exact (sweep_ge rest op.end_ hrest e he).1

/-- A successful lookup is a member. -/
theorem alookup_mem : ∀ (asg : Asg) (i : Nat) (v : Int × Int),
    alookup i asg = some v → (i, v) ∈ asg := by
  intro asg
  induction asg with
  | nil => intro i v h; simp [alookup] at h
  | cons e rest ih =>
    intro i v h
    obtain ⟨k, w⟩ := e
    by_cases hik : i = k
    · subst hik
      simp only [alookup] at h
      rw [if_pos trivial] at h
      injection h with h
      subst h
      exact List.mem_cons_self _ _
    · simp only [alookup] at h
      rw [if_neg hik] at h
      exact List.mem_cons_of_mem _ (ih i v h)

/-- With distinct keys, membership determines the lookup. -/
theorem alookup_of_mem_nodup : ∀ (asg : Asg) (i : Nat) (v : Int × Int),
    (asg.map Prod.fst).Nodup → (i, v) ∈ asg → alookup i asg = some v := by
  intro asg
  induction asg with
  | nil => intro i v _ h; simp at h
  | cons e rest ih =>
    intro i v hnd hm
    obtain ⟨k, w⟩ := e
    simp only [List.map_cons, List.nodup_cons] at hnd
    rcases List.mem_cons.mp hm with hmh | hmt
    · injection hmh with ha hb
      subst ha
      subst hb
      simp [alookup]
    · by_cases hik : i = k
      · subst hik
        exfalso
        apply hnd.1
        exact List.mem_map_of_mem Prod.fst hmt
      · simp only [alookup]
        rw [if_neg hik]
        exact ih i v hnd.2 hmt

/-- Forall₂ sends members of the left list to related members of the
right list. -/
theorem forall₂_mem_left {R : (Nat × Int × Int) → (Nat × Operation) → Prop} :
    ∀ {l1 : Asg} {l2 : List (Nat × Operation)}, List.Forall₂ R l1 l2 →
    ∀ a ∈ l1, ∃ b ∈ l2, R a b := by
  intro l1 l2 h
  induction h with
  | nil => intro a ha; simp at ha
  | cons hr _ ih =>
    intro a ha
    rcases List.mem_cons.mp ha with ha | ha
    · exact ⟨_, List.mem_cons_self _ _, ha ▸ hr⟩
    · obtain ⟨b, hb, hrb⟩ := ih a ha
      exact ⟨b, List.mem_cons_of_mem _ hb, hrb⟩

/-- The write-back preserves length. -/
theorem applyAsgFrom_length (asg : Asg) : ∀ (l : Timeline) (n : Nat),
    (applyAsgFrom n asg l).length = l.length := by
  intro l
  induction l with
  | nil => intro n; rfl
  | cons a rest ih => intro n; simpa [applyAsgFrom] using ih (n + 1)

/-- The write-back at position `i` applies exactly the assignment for
label `n + i`. -/
theorem applyAsgFrom_getElem (asg : Asg) : ∀ (l : Timeline) (n i : Nat)
    (hi : i < l.length) (hi2 : i < (applyAsgFrom n asg l).length),
    (applyAsgFrom n asg l)[i] = applyAsgOne (alookup (n + i) asg) l[i] := by
  intro l
  induction l with
  | nil => intro n i hi _; simp at hi
  | cons a rest ih =>
    intro n i hi hi2
    cases i with
    | zero => simp [applyAsgFrom]
    | succ i =>
      have hi' : i < rest.length := by simpa using hi
      have hi2' : i < (applyAsgFrom (n + 1) asg rest).length := by
        rw [applyAsgFrom_length]; exact hi'
      simp only [applyAsgFrom, List.getElem_cons_succ]
      rw [ih (n + 1) i hi' hi2']
      have he : n + 1 + i = n + (i + 1) := by omega
      rw [he]

/-! ## Per-machine repack: specification lemmas -/

/-- Membership in a block is membership in the filtered enumeration. -/
theorem blockOf_mem_iff (s : Timeline) (m : String) (p : Nat × Operation) :
    p ∈ blockOf s m ↔ p ∈ (enumFrom 0 s).filter (fun q => q.2.machine == m) :=
  (sortPairs_perm lePair _).mem_iff

/-- A block row is the schedule row of its label, on machine `m`. -/
theorem blockOf_spec (s : Timeline) (m : String) (p : Nat × Operation)
    (hp : p ∈ blockOf s m) :
    ∃ h : p.1 < s.length, p.2 = s[p.1] ∧ p.2.machine = m := by
  have h1 := (blockOf_mem_iff s m p).mp hp
  have h2 := List.mem_filter.mp h1
  have h3 := (enumFrom_mem s 0 p).mp h2.1
  obtain ⟨k, hk, hpk, hpv⟩ := h3
  have hkp : p.1 = k := by omega
  subst hkp
  exact ⟨hk, hpv, by simpa using h2.2⟩

/-- Every schedule row on machine `m` appears in the block. -/
theorem blockOf_coverage (s : Timeline) (m : String) (i : Nat)
    (hi : i < s.length) (hm : s[i].machine = m) : (i, s[i]) ∈ blockOf s m := by
  rw [blockOf_mem_iff]
  refine List.mem_filter.mpr ⟨?_, by simpa using hm⟩
  exact (enumFrom_mem s 0 (i, s[i])).mpr ⟨i, hi, by omega, rfl⟩

/-- Block labels are distinct. -/
theorem blockOf_keys_nodup (s : Timeline) (m : String) :
    ((blockOf s m).map Prod.fst).Nodup := by
  have h1 : List.Pairwise (fun p q : Nat × Operation => p.1 < q.1)
      ((enumFrom 0 s).filter (fun q => q.2.machine == m)) :=
    (enumFrom_keys_sorted s 0).sublist (List.filter_sublist _)
  have h2 : List.Pairwise (fun a b : Nat => a < b)
      (((enumFrom 0 s).filter (fun q => q.2.machine == m)).map Prod.fst) :=
    h1.map Prod.fst (fun a b hab => hab)
  have h3 : (((enumFrom 0 s).filter (fun q => q.2.machine == m)).map Prod.fst).Nodup :=
    h2.imp Nat.ne_of_lt
  exact ((sortPairs_perm lePair _).map Prod.fst).symm.nodup h3

/-- A sweep entry describes the schedule row of its label: same machine,
same duration, start not moved earlier. -/
theorem asg_mem_spec (s : Timeline) (m : String) (i : Nat) (v : Int × Int)
    (h : (i, v) ∈ sweep none (blockOf s m)) :
    ∃ hlt : i < s.length,
      s[i].machine = m ∧ v.2 - v.1 = s[i].end_ - s[i].start ∧ s[i].start ≤ v.1 := by
  obtain ⟨p, hp, hrel⟩ := forall₂_mem_left (sweep_rel none (blockOf s m)) (i, v) h
  obtain ⟨hlt, hpe, hpm⟩ := blockOf_spec s m p hp
  obtain ⟨h1, h2, h3⟩ := hrel
  have hip : p.1 = i := h1.symm
  subst hip
  refine ⟨hlt, ?_, ?_, ?_⟩
  · rw [← hpe]; exact hpm
  · rw [← hpe]; exact h2
  · rw [← hpe]; exact h3

/-- Every machine-`m` row label receives some sweep assignment. -/
theorem asg_coverage (s : Timeline) (m : String) (i : Nat)
    (hi : i < s.length) (hm : s[i].machine = m) :
    ∃ v, (i, v) ∈ sweep none (blockOf s m) := by
  have hb : (i, s[i]) ∈ blockOf s m := blockOf_coverage s m i hi hm
  have hkeys : i ∈ (sweep none (blockOf s m)).map Prod.fst := by
    rw [sweep_keys]
    exact List.mem_map_of_mem Prod.fst hb
  obtain ⟨e, he, hei⟩ := List.mem_map.mp hkeys
  refine ⟨e.2, ?_⟩
  rw [← hei]
  exact he

/-- Sweep assignment labels are distinct. -/
theorem asg_keys_nodup (s : Timeline) (m : String) :
    ((sweep none (blockOf s m)).map Prod.fst).Nodup := by
  rw [sweep_keys]
  exact blockOf_keys_nodup s m

/-- With nonnegative durations the sweep assignments form a chain. -/
theorem asg_pairwise (s : Timeline) (m : String) (hdur : DurNonneg s) :
    List.Pairwise (fun a b : Nat × Int × Int => a.2.2 ≤ b.2.1)
      (sweep none (blockOf s m)) := by
  apply sweep_pairwise
  intro p hp
  obtain ⟨hlt, hpe, _⟩ := blockOf_spec s m p hp
  rw [hpe]
  exact hdur s[p.1] (List.getElem_mem hlt)

/-- The repacked schedule has the schedule's length. -/
theorem repackMachine_length (s : Timeline) (m : String) :
    (repackMachine s m).length = s.length :=
  applyAsgFrom_length _ s 0

/-- The repacked row `i` is the schedule row with its sweep assignment
applied. -/
theorem repackMachine_getElem (s : Timeline) (m : String) (i : Nat)
    (hi : i < s.length) (hi2 : i < (repackMachine s m).length) :
    (repackMachine s m)[i] =
      applyAsgOne (alookup i (sweep none (blockOf s m))) s[i] := by
  have := applyAsgFrom_getElem (sweep none (blockOf s m)) s 0 i hi hi2
  simpa using this

/-- Repacking one machine keeps every non-time field, keeps every
duration, and never moves a start earlier. -/
theorem repackMachine_frame (s : Timeline) (m : String) (i : Nat)
    (hi : i < s.length) (hi2 : i < (repackMachine s m).length) :
    frameEq ((repackMachine s m)[i]) s[i] ∧
    (repackMachine s m)[i].end_ - (repackMachine s m)[i].start =
      s[i].end_ - s[i].start ∧
    s[i].start ≤ (repackMachine s m)[i].start := by
  rw [repackMachine_getElem s m i hi hi2]
  cases halk : alookup i (sweep none (blockOf s m)) with
  | none => exact ⟨⟨rfl, rfl, rfl, rfl, rfl, rfl⟩, rfl, le_refl _⟩
  | some v =>
    have hmem := alookup_mem _ i v halk
    obtain ⟨hlt, hm2, hdur2, hst⟩ := asg_mem_spec s m i v hmem
    exact ⟨⟨rfl, rfl, rfl, rfl, rfl, rfl⟩, hdur2, hst⟩

/-- Rows of other machines are untouched by the repack of `m`. -/
theorem repackMachine_other (s : Timeline) (m : String) (i : Nat)
    (hi : i < s.length) (hi2 : i < (repackMachine s m).length)
    (hne : s[i].machine ≠ m) : (repackMachine s m)[i] = s[i] := by
  rw [repackMachine_getElem s m i hi hi2]
  cases halk : alookup i (sweep none (blockOf s m)) with
  | none => rfl
  | some v =>
    have hmem := alookup_mem _ i v halk
    obtain ⟨hlt, hm2, _, _⟩ := asg_mem_spec s m i v hmem
    exact absurd hm2 hne

/-- No two operations on the given machine overlap. -/
def NonOvAt (s : Timeline) (m : String) : Prop :=
  ∀ i j (hi : i < s.length) (hj : j < s.length), i ≠ j →
    s[i].machine = m → s[j].machine = m → ¬ overlap s[i] s[j]

/-- With nonnegative durations, the repacked machine satisfies the
non-overlap invariant — whatever its input positions were. -/
theorem repackMachine_nonov_self (s : Timeline) (m : String)
    (hdur : DurNonneg s) : NonOvAt (repackMachine s m) m := by
  intro i j hi2 hj2 hne him hjm
  have hi : i < s.length := by rw [← repackMachine_length s m]; exact hi2
  have hj : j < s.length := by rw [← repackMachine_length s m]; exact hj2
  have hmi : s[i].machine = m := by
    have := (repackMachine_frame s m i hi hi2).1.2.1
    rw [← this]; exact him
  have hmj : s[j].machine = m := by
    have := (repackMachine_frame s m j hj hj2).1.2.1
    rw [← this]; exact hjm
  obtain ⟨vi, hvi⟩ := asg_coverage s m i hi hmi
  obtain ⟨vj, hvj⟩ := asg_coverage s m j hj hmj
  have hli : alookup i (sweep none (blockOf s m)) = some vi :=
    alookup_of_mem_nodup _ i vi (asg_keys_nodup s m) hvi
  have hlj : alookup j (sweep none (blockOf s m)) = some vj :=
    alookup_of_mem_nodup _ j vj (asg_keys_nodup s m) hvj
  have hpw : List.Pairwise
      (fun a b : Nat × Int × Int => a.2.2 ≤ b.2.1 ∨ b.2.2 ≤ a.2.1)
      (sweep none (blockOf s m)) :=
    (asg_pairwise s m hdur).imp (fun hab => Or.inl hab)
  have hsym : Symmetric (fun a b : Nat × Int × Int => a.2.2 ≤ b.2.1 ∨ b.2.2 ≤ a.2.1) :=
    fun a b hab => hab.symm
  have hnepair : (i, vi) ≠ (j, vj) := by
    intro hcontra
    exact hne (congrArg Prod.fst hcontra)
  have hdisj := hpw.forall hsym hvi hvj hnepair
  rw [repackMachine_getElem s m i hi hi2, repackMachine_getElem s m j hj hj2,
    hli, hlj]
  intro hov
  simp only [applyAsgOne, overlap] at hov
  simp only [max_lt_iff, lt_min_iff] at hov
  have hdisj2 : vi.2 ≤ vj.1 ∨ vj.2 ≤ vi.1 := hdisj
  obtain ⟨⟨h1, h2⟩, h3, h4⟩ := hov
  rcases hdisj2 with hle | hle <;> omega

/-- Repacking machine `m` does not disturb the invariant of any other
machine. -/
theorem repackMachine_nonov_other (s : Timeline) (m mx : String)
    (hne : mx ≠ m) (h : NonOvAt s mx) : NonOvAt (repackMachine s m) mx := by
  intro i j hi2 hj2 hij him hjm
  have hi : i < s.length := by rw [← repackMachine_length s m]; exact hi2
  have hj : j < s.length := by rw [← repackMachine_length s m]; exact hj2
  have hmi : s[i].machine = mx := by
    have := (repackMachine_frame s m i hi hi2).1.2.1
    rw [← this]; exact him
  have hmj : s[j].machine = mx := by
    have := (repackMachine_frame s m j hj hj2).1.2.1
    rw [← this]; exact hjm
  have hei : (repackMachine s m)[i] = s[i] :=
    repackMachine_other s m i hi hi2 (by rw [hmi]; exact hne)
  have hej : (repackMachine s m)[j] = s[j] :=
    repackMachine_other s m j hj hj2 (by rw [hmj]; exact hne)
  rw [hei, hej]
  exact h i j hi hj hij hmi hmj

/-- Repacking one machine preserves nonnegative durations. -/
theorem repackMachine_durNonneg (s : Timeline) (m : String)
    (hdur : DurNonneg s) : DurNonneg (repackMachine s m) := by
  intro op hop
  obtain ⟨i, hi2, rfl⟩ := List.mem_iff_getElem.mp hop
  have hi : i < s.length := by rw [← repackMachine_length s m]; exact hi2
  have hd := (repackMachine_frame s m i hi hi2).2.1
  have := hdur s[i] (List.getElem_mem hi)
  omega

/-! ## Folding the repack over the touched machines -/

/-- `frameEq` is reflexive. -/
theorem frameEq_refl (a : Operation) : frameEq a a :=
  ⟨rfl, rfl, rfl, rfl, rfl, rfl⟩

/-- `frameEq` is transitive. -/
theorem frameEq_trans {a b c : Operation} (h1 : frameEq a b) (h2 : frameEq b c) :
    frameEq a c := by
  obtain ⟨a1, a2, a3, a4, a5, a6⟩ := h1
  obtain ⟨b1, b2, b3, b4, b5, b6⟩ := h2
  exact ⟨a1.trans b1, a2.trans b2, a3.trans b3, a4.trans b4, a5.trans b5, a6.trans b6⟩

/-- The machine loop preserves length. -/
theorem foldl_repack_length (ms : List String) : ∀ s : Timeline,
    (ms.foldl repackMachine s).length = s.length := by
  induction ms with
  | nil => intro s; rfl
  | cons m0 rest ih =>
    intro s
    simp only [List.foldl_cons]
    rw [ih (repackMachine s m0), repackMachine_length]

/-- The machine loop keeps every non-time field and duration and never
moves a start earlier. -/
theorem foldl_repack_elem (ms : List String) : ∀ (s : Timeline) (i : Nat)
    (hi : i < s.length) (hi2 : i < (ms.foldl repackMachine s).length),
    frameEq ((ms.foldl repackMachine s)[i]) s[i] ∧
    (ms.foldl repackMachine s)[i].end_ - (ms.foldl repackMachine s)[i].start =
      s[i].end_ - s[i].start ∧
    s[i].start ≤ (ms.foldl repackMachine s)[i].start := by
  induction ms with
  | nil => intro s i hi hi2; exact ⟨frameEq_refl _, rfl, le_refl _⟩
  | cons m0 rest ih =>
    intro s i hi hi2
    simp only [List.foldl_cons] at hi2 ⊢
    have hi1 : i < (repackMachine s m0).length := by
      rw [repackMachine_length]; exact hi
    have hstep := repackMachine_frame s m0 i hi hi1
    have hrest := ih (repackMachine s m0) i hi1 hi2
    refine ⟨frameEq_trans hrest.1 hstep.1, ?_, ?_⟩
    · rw [hrest.2.1, hstep.2.1]
    · exact hstep.2.2.trans hrest.2.2

/-- The machine loop preserves nonnegative durations. -/
theorem foldl_repack_durNonneg (ms : List String) : ∀ s : Timeline,
    DurNonneg s → DurNonneg (ms.foldl repackMachine s) := by
  induction ms with
  | nil => intro s h; exact h
  | cons m0 rest ih =>
    intro s h
    exact ih (repackMachine s m0) (repackMachine_durNonneg s m0 h)

/-- After the machine loop, every machine of the worklist satisfies the
non-overlap invariant, and machines outside the worklist keep theirs. -/
theorem foldl_repack_nonov (ms : List String) : ∀ s : Timeline,
    DurNonneg s → (∀ mx, mx ∉ ms → NonOvAt s mx) →
    ∀ mx, NonOvAt (ms.foldl repackMachine s) mx := by
  induction ms with
  | nil =>
    intro s _ h mx
    exact h mx (by simp)
  | cons m0 rest ih =>
    intro s hdur h mx
    simp only [List.foldl_cons]
    apply ih (repackMachine s m0) (repackMachine_durNonneg s m0 hdur)
    intro my hmy
    by_cases hcase : my = m0
    · subst hcase
      exact repackMachine_nonov_self s my hdur
    · have hmy2 : my ∉ m0 :: rest := by
        intro hc
        rcases List.mem_cons.mp hc with hc | hc
        · exact hcase hc
        · exact hmy hc
      exact repackMachine_nonov_other s m0 my hcase (h my hmy2)

/-! ## The non-overlap invariant, by machine and pairwise -/

/-- Overlap is symmetric. -/
theorem overlap_comm (a b : Operation) : overlap a b ↔ overlap b a := by
  unfold overlap
  rw [max_comm, min_comm]

/-- The pairwise invariant, phrased over index pairs. -/
theorem noOverlap_iff (s : Timeline) :
    NoOverlap s ↔ ∀ i j (hi : i < s.length) (hj : j < s.length), i ≠ j →
      s[i].machine = s[j].machine → ¬ overlap s[i] s[j] := by
  unfold NoOverlap
  rw [List.pairwise_iff_getElem]
  constructor
  · intro h i j hi hj hne hm
    rcases Nat.lt_or_ge i j with hlt | hge
    · exact h i j hi hj hlt hm
    · have hlt : j < i := by omega
      intro hov
      exact h j i hj hi hlt hm.symm ((overlap_comm _ _).mp hov)
  · intro h i j hi hj hij
    exact fun hm => h i j hi hj (Nat.ne_of_lt hij) hm

/-- The pairwise invariant, phrased machine by machine. -/
theorem noOverlap_iff_at (s : Timeline) : NoOverlap s ↔ ∀ m, NonOvAt s m := by
  rw [noOverlap_iff]
  constructor
  · intro h m i j hi hj hne him hjm
    exact h i j hi hj hne (him.trans hjm.symm)
  · intro h i j hi hj hne hm
    exact h s[j].machine i j hi hj hne hm rfl

/-! ## The shift step and the touched machines -/

/-- The shift step preserves length. -/
theorem shift_order_length (s : Timeline) (oid : String) (d h : Int) :
    (shift_order s oid d h).length = s.length := by
  unfold shift_order
  exact List.length_map s _

/-- The shift step, row by row. -/
theorem shift_order_getElem (s : Timeline) (oid : String) (d h : Int) (i : Nat)
    (hi : i < s.length) (hi2 : i < (shift_order s oid d h).length) :
    (shift_order s oid d h)[i] =
      (if s[i].order_id = oid then
        { s[i] with start := s[i].start + (d * 86400 + h * 3600),
                    end_ := s[i].end_ + (d * 86400 + h * 3600) }
       else s[i]) := by
  simp [shift_order]

/-- The shift step keeps every non-time field. -/
theorem shift_order_frame (s : Timeline) (oid : String) (d h : Int) (i : Nat)
    (hi : i < s.length) (hi2 : i < (shift_order s oid d h).length) :
    frameEq ((shift_order s oid d h)[i]) s[i] := by
  rw [shift_order_getElem s oid d h i hi hi2]
  by_cases hc : s[i].order_id = oid
  · rw [if_pos hc]; exact ⟨rfl, rfl, rfl, rfl, rfl, rfl⟩
  · rw [if_neg hc]; exact frameEq_refl _

/-- Rows of other orders are untouched by the shift. -/
theorem shift_order_unchanged (s : Timeline) (oid : String) (d h : Int) (i : Nat)
    (hi : i < s.length) (hi2 : i < (shift_order s oid d h).length)
    (hne : s[i].order_id ≠ oid) : (shift_order s oid d h)[i] = s[i] := by
  rw [shift_order_getElem s oid d h i hi hi2, if_neg hne]

/-- The shift step preserves nonnegative durations. -/
theorem shift_order_durNonneg (s : Timeline) (oid : String) (d h : Int)
    (hdur : DurNonneg s) : DurNonneg (shift_order s oid d h) := by
  intro op hop
  unfold shift_order at hop
  obtain ⟨op0, hop0, rfl⟩ := List.mem_map.mp hop
  have := hdur op0 hop0
  by_cases hc : op0.order_id = oid
  · rw [if_pos hc]
    simp only
    omega
  · rw [if_neg hc]
    exact this

/-- Membership in the accumulated first-occurrence deduplication. -/
theorem dedup_foldl_mem (l : List String) : ∀ (acc : List String) (x : String),
    x ∈ l.foldl (fun acc y => if acc.contains y then acc else acc ++ [y]) acc ↔
      x ∈ acc ∨ x ∈ l := by
  induction l with
  | nil => intro acc x; simp
  | cons y ys ih =>
    intro acc x
    simp only [List.foldl_cons]
    by_cases hc : acc.contains y
    · rw [if_pos hc, ih]
      have hy : y ∈ acc := by
        rw [List.contains_iff_exists_mem_beq] at hc
        obtain ⟨z, hz, hbeq⟩ := hc
        rw [beq_iff_eq] at hbeq
        rw [hbeq]
        exact hz
      constructor
      · rintro (hx | hx)
        · exact Or.inl hx
        · exact Or.inr (List.mem_cons_of_mem _ hx)
      · rintro (hx | hx)
        · exact Or.inl hx
        · rcases List.mem_cons.mp hx with hx | hx
          · subst hx; exact Or.inl hy
          · exact Or.inr hx
    · rw [if_neg hc, ih]
      simp only [List.mem_append, List.mem_singleton, List.mem_cons]
      tauto

/-- `dedupFirst` keeps exactly the members. -/
theorem dedupFirst_mem (l : List String) (x : String) :
    x ∈ dedupFirst l ↔ x ∈ l := by
  unfold dedupFirst
  rw [dedup_foldl_mem]
  simp

/-- A machine is touched exactly when some operation of a touched order
runs on it. -/
theorem machinesOf_mem (s : Timeline) (t : List String) (mx : String) :
    mx ∈ machinesOf s t ↔ ∃ op ∈ s, t.contains op.order_id ∧ op.machine = mx := by
  unfold machinesOf
  rw [dedupFirst_mem]
  constructor
  · intro h
    obtain ⟨op, hop, hmx⟩ := List.mem_map.mp h
    have := List.mem_filter.mp hop
    exact ⟨op, this.1, this.2, hmx⟩
  · rintro ⟨op, hop, ht, hmx⟩
    exact List.mem_map.mpr ⟨op, List.mem_filter.mpr ⟨hop, ht⟩, hmx⟩

/-- The heart of C1: `apply_delay` restores the machine non-overlap
invariant on every machine. -/
theorem apply_delay_no_overlap (s : Timeline) (oid : String) (d h : Int)
    (hdur : DurNonneg s) (hinv : NoOverlap s) :
    NoOverlap (apply_delay s oid d h) := by
  unfold apply_delay repack_touched_machines
  rw [noOverlap_iff_at]
  intro mx
  apply foldl_repack_nonov (machinesOf (shift_order s oid d h) [oid])
    (shift_order s oid d h) (shift_order_durNonneg s oid d h hdur)
  intro my hmy i j hi2 hj2 hne him hjm
  have hi : i < s.length := by rw [← shift_order_length s oid d h]; exact hi2
  have hj : j < s.length := by rw [← shift_order_length s oid d h]; exact hj2
  have hoi : (shift_order s oid d h)[i].order_id ≠ oid := by
    intro he
    apply hmy
    rw [machinesOf_mem]
    refine ⟨(shift_order s oid d h)[i], List.getElem_mem hi2, ?_, him⟩
    rw [he]
    simp
  have hoj : (shift_order s oid d h)[j].order_id ≠ oid := by
    intro he
    apply hmy
    rw [machinesOf_mem]
    refine ⟨(shift_order s oid d h)[j], List.getElem_mem hj2, ?_, hjm⟩
    rw [he]
    simp
  have hsi : s[i].order_id ≠ oid := by
    have := (shift_order_frame s oid d h i hi hi2).1
    rw [← this]
    exact hoi
  have hsj : s[j].order_id ≠ oid := by
    have := (shift_order_frame s oid d h j hj hj2).1
    rw [← this]
    exact hoj
  have hei : (shift_order s oid d h)[i] = s[i] :=
    shift_order_unchanged s oid d h i hi hi2 hsi
  have hej : (shift_order s oid d h)[j] = s[j] :=
    shift_order_unchanged s oid d h j hj hj2 hsj
  rw [hei] at him
  rw [hej] at hjm
  intro hov
  rw [hei, hej] at hov
  exact (noOverlap_iff s).mp hinv i j hi hj hne (him.trans hjm.symm) hov

/-- `apply_delay` preserves nonnegative durations. -/
theorem apply_delay_durNonneg (s : Timeline) (oid : String) (d h : Int)
    (hdur : DurNonneg s) : DurNonneg (apply_delay s oid d h) :=
  foldl_repack_durNonneg _ _ (shift_order_durNonneg s oid d h hdur)

/-- `apply_delay` preserves length. -/
theorem apply_delay_length (s : Timeline) (oid : String) (d h : Int) :
    (apply_delay s oid d h).length = s.length :=
  (foldl_repack_length _ _).trans (shift_order_length s oid d h)

/-- `apply_delay` keeps every non-time field of every row. -/
theorem apply_delay_frame (s : Timeline) (oid : String) (d h : Int) (i : Nat)
    (hi : i < s.length) (hi2 : i < (apply_delay s oid d h).length) :
    frameEq ((apply_delay s oid d h)[i]) s[i] := by
  have hiS : i < (shift_order s oid d h).length := by
    rw [shift_order_length]; exact hi
  have h1 := foldl_repack_elem (machinesOf (shift_order s oid d h) ["" ++ oid])
    (shift_order s oid d h) i hiS hi2
  exact frameEq_trans h1.1 (shift_order_frame s oid d h i hi hiS)

/-- Claim C1: starting from a well-formed timeline satisfying the machine
non-overlap invariant, each of the three mutation functions — delay with
any signed day/hour quantities, move to any target for a present order,
swap of two present orders — returns a timeline that satisfies the
invariant again. -/
theorem mutations_preserve_no_overlap (s : Timeline)
    (hdur : DurNonneg s) (hinv : NoOverlap s) :
    (∀ oid d h, NoOverlap (apply_delay s oid d h)) ∧
    (∀ oid t t0, earliest_start s oid = some t0 → NoOverlap (apply_move s oid t)) ∧
    (∀ a b a0 b0, earliest_start s a = some a0 → earliest_start s b = some b0 →
      NoOverlap (apply_swap s a b)) := by
  have hd : ∀ oid d h, NoOverlap (apply_delay s oid d h) :=
    fun oid d h => apply_delay_no_overlap s oid d h hdur hinv
  refine ⟨hd, ?_, ?_⟩
  · intro oid t t0 h0
    unfold apply_move
    rw [h0]
    exact hd oid _ _
  · intro a b a0 b0 ha hb
    unfold apply_swap
    rw [ha, hb]
    exact apply_delay_no_overlap
      (apply_delay s a (tdDays (b0 - a0)) (tdHours (b0 - a0))) b
      (tdDays (a0 - b0)) (tdHours (a0 - b0))
      (apply_delay_durNonneg s a (tdDays (b0 - a0)) (tdHours (b0 - a0)) hdur)
      (hd a (tdDays (b0 - a0)) (tdHours (b0 - a0)))

/-- Witness for C1: on the concrete two-order schedule `exTL`, delay,
move and swap all return non-overlapping timelines. -/
theorem mutations_preserve_no_overlap_witness :
    NoOverlap (apply_delay exTL "O001" 0 1) ∧
    NoOverlap (apply_move exTL "O001" 7200) ∧
    NoOverlap (apply_swap exTL "O001" "O002") :=
  ⟨(mutations_preserve_no_overlap exTL (by decide) (by decide)).1 "O001" 0 1,
   (mutations_preserve_no_overlap exTL (by decide) (by decide)).2.1 "O001" 7200 0
     (by decide),
   (mutations_preserve_no_overlap exTL (by decide) (by decide)).2.2 "O001" "O002"
     0 7200 (by decide) (by decide)⟩

/-- Claim C5: repacking preserves every operation's duration, for any
timeline and any set of touched orders. -/
theorem repack_preserves_durations (s : Timeline) (touched : List String) :
    (repack_touched_machines s touched).length = s.length ∧
    ∀ i (hi : i < s.length) (hi2 : i < (repack_touched_machines s touched).length),
      (repack_touched_machines s touched)[i].end_ -
        (repack_touched_machines s touched)[i].start =
        s[i].end_ - s[i].start := by
  refine ⟨foldl_repack_length _ s, ?_⟩
  intro i hi hi2
  exact (foldl_repack_elem (machinesOf s touched) s i hi hi2).2.1

/-- Witness for C5 on `exTL` with both rows: durations survive a repack
that touches `O002`. -/
theorem repack_preserves_durations_witness :
    (repack_touched_machines exTL ["O002"]).length = exTL.length ∧
    ∃ _h0 : 0 < exTL.length,
      ∃ h02 : 0 < (repack_touched_machines exTL ["O002"]).length,
        (repack_touched_machines exTL ["O002"])[0].end_ -
          (repack_touched_machines exTL ["O002"])[0].start =
          exTL[0].end_ - exTL[0].start :=
  ⟨(repack_preserves_durations exTL ["O002"]).1,
   by decide, by decide,
   (repack_preserves_durations exTL ["O002"]).2 0 (by decide) (by decide)⟩

/-- Claim C6: repacking never moves an operation earlier than its
pre-repack start, for any timeline and any set of touched orders. -/
theorem repack_never_moves_earlier (s : Timeline) (touched : List String) :
    (repack_touched_machines s touched).length = s.length ∧
    ∀ i (hi : i < s.length) (hi2 : i < (repack_touched_machines s touched).length),
      s[i].start ≤ (repack_touched_machines s touched)[i].start := by
  refine ⟨foldl_repack_length _ s, ?_⟩
  intro i hi hi2
  exact (foldl_repack_elem (machinesOf s touched) s i hi hi2).2.2

/-- Witness for C6 on `exTL`: no start moves backward under a repack
touching `O001`. -/
theorem repack_never_moves_earlier_witness :
    (repack_touched_machines exTL ["O001"]).length = exTL.length ∧
    ∃ _h1 : 1 < exTL.length,
      ∃ h12 : 1 < (repack_touched_machines exTL ["O001"]).length,
        exTL[1].start ≤ (repack_touched_machines exTL ["O001"])[1].start :=
  ⟨(repack_never_moves_earlier exTL ["O001"]).1,
   by decide, by decide,
   (repack_never_moves_earlier exTL ["O001"]).2 1 (by decide) (by decide)⟩

/-- Claim C9: each accepted mutation returns a timeline with exactly the
same operations in the same positions — none created, none lost — and
with every field other than `start` and `end` (order, machine, operation
name, sequence, due date, wheel type) unchanged row by row. -/
theorem mutations_preserve_identity (s : Timeline) :
    (∀ oid d h, (apply_delay s oid d h).length = s.length ∧
      ∀ i (hi : i < s.length) (hi2 : i < (apply_delay s oid d h).length),
        frameEq ((apply_delay s oid d h)[i]) s[i]) ∧
    (∀ oid t t0, earliest_start s oid = some t0 →
      (apply_move s oid t).length = s.length ∧
      ∀ i (hi : i < s.length) (hi2 : i < (apply_move s oid t).length),
        frameEq ((apply_move s oid t)[i]) s[i]) ∧
    (∀ a b a0 b0, earliest_start s a = some a0 → earliest_start s b = some b0 →
      (apply_swap s a b).length = s.length ∧
      ∀ i (hi : i < s.length) (hi2 : i < (apply_swap s a b).length),
        frameEq ((apply_swap s a b)[i]) s[i]) := by
  refine ⟨?_, ?_, ?_⟩
  · intro oid d h
    exact ⟨apply_delay_length s oid d h,
      fun i hi hi2 => apply_delay_frame s oid d h i hi hi2⟩
  · intro oid t t0 h0
    unfold apply_move
    rw [h0]
    exact ⟨apply_delay_length s oid _ _,
      fun i hi hi2 => apply_delay_frame s oid _ _ i hi hi2⟩
  · intro a b a0 b0 ha hb
    unfold apply_swap
    rw [ha, hb]
    have hlen1 := apply_delay_length s a (tdDays (b0 - a0)) (tdHours (b0 - a0))
    have hlen2 := apply_delay_length
      (apply_delay s a (tdDays (b0 - a0)) (tdHours (b0 - a0))) b
      (tdDays (a0 - b0)) (tdHours (a0 - b0))
    refine ⟨hlen2.trans hlen1, ?_⟩
    intro i hi hi2
    have hi1 : i < (apply_delay s a (tdDays (b0 - a0)) (tdHours (b0 - a0))).length := by
      rw [hlen1]; exact hi
    exact frameEq_trans
      (apply_delay_frame _ b (tdDays (a0 - b0)) (tdHours (a0 - b0)) i hi1 hi2)
      (apply_delay_frame s a (tdDays (b0 - a0)) (tdHours (b0 - a0)) i hi hi1)

/-- Witness for C9: identity and non-time fields survive a delay, a move
and a swap on the concrete schedule `exTL`. -/
theorem mutations_preserve_identity_witness :
    (apply_delay exTL "O001" 2 0).length = exTL.length ∧
    (apply_move exTL "O001" 7200).length = exTL.length ∧
    (apply_swap exTL "O001" "O002").length = exTL.length ∧
    ∃ h02 : 0 < (apply_swap exTL "O001" "O002").length,
      frameEq ((apply_swap exTL "O001" "O002")[0]) exTL[0] :=
  ⟨((mutations_preserve_identity exTL).1 "O001" 2 0).1,
   ((mutations_preserve_identity exTL).2.1 "O001" 7200 0 (by decide)).1,
   ((mutations_preserve_identity exTL).2.2 "O001" "O002" 0 7200
     (by decide) (by decide)).1,
   by decide,
   ((mutations_preserve_identity exTL).2.2 "O001" "O002" 0 7200
     (by decide) (by decide)).2 0 (by decide) (by decide)⟩
